import Mathlib

/-!
Verification of the ALARM buddy-block allocator (`alarm-buddy/src/lib.rs`,
`alarm-buddy/src/log2.rs`) and the intrusive doubly-linked list
(`intruder-alarm/src/list/mod.rs`) against the natural-language specification.

Machine integers (`usize`) are modelled as `Nat`; the 64-bit width shows up as
explicit `< 2^64` hypotheses where the bit-twiddling code depends on it.
Raw pointers are modelled as `Nat` addresses; the free-block headers written
into heap memory are modelled as a function from addresses to header contents.
-/

namespace Alarm

/-! ### `log2.rs` — the bit-hack `Log2` implementation for `usize`

```rust
const B: [usize; 6] = [0x2, 0xC, 0xF0, 0xFF00, 0xFFFF0000, 0xFFFFFFFF00000000];
const S: [usize; 6] = [1, 2, 4, 8, 16, 32];
fn log2(self) -> usize {
    let mut result: usize = 0;
    let mut v = self;
    for i in (0..S.len()).rev() {
        if v & B[i] != 0 { v >>= S[i]; result |= S[i]; }
    }
    result
}
```
-/

def B : List Nat := [0x2, 0xC, 0xF0, 0xFF00, 0xFFFF0000, 0xFFFFFFFF00000000]

def S : List Nat := [1, 2, 4, 8, 16, 32]

/-- The body of the `for i in (0..S.len()).rev()` loop, iterating over the
list of remaining indices. -/
def log2Go : List Nat → Nat → Nat → Nat
  | [], _, result => result
  | i :: rest, v, result =>
    if v &&& B.getD i 0 ≠ 0 then log2Go rest (v >>> S.getD i 0) (result ||| S.getD i 0)
    else log2Go rest v result

/-- `<usize as Log2>::log2` from `log2.rs`. -/
def log2 (self : Nat) : Nat := log2Go [5, 4, 3, 2, 1, 0] self 0

/-- Exponent-indexed view of the same loop: index `i` contributes shift
`S[i] = 2^i` and mask `B[i] = (2^(2^i) - 1) * 2^(2^i)`. -/
def log2GoE : List Nat → Nat → Nat → Nat
  | [], _, result => result
  | e :: rest, v, result =>
    if v &&& ((2 ^ 2 ^ e - 1) * 2 ^ 2 ^ e) ≠ 0 then
      log2GoE rest (v >>> 2 ^ e) (result ||| 2 ^ e)
    else log2GoE rest v result

/-- The descending index list `[i, i-1, ..., 0]`. -/
def descList : Nat → List Nat
  | 0 => [0]
  | i + 1 => (i + 1) :: descList i

/-! ### `alarm-buddy/src/lib.rs` — data model

`usize` is `Nat`; a raw pointer is its `Nat` address.  The only mutable
in-memory datum outside the free lists is the `size` field of the
`FreeBlock` header written at the start of each free block, modelled as a
function `mem : Nat → Nat` from addresses to stored sizes.  Each entry of
`free_lists` is the element sequence (front first) of the corresponding
intrusive `FreeList`; `List.pop_front_node` is de-consing, and
`List.push_front_node` is consing (proved faithful to the pointer-level
list in the `IntrusiveList` section below).  The frame provider `F` of the
`Heap` is modelled by its constant `FRAME_SIZE` (a parameter named `F`)
together with the list of frame base addresses it will hand out in order. -/

/-- `usize::is_power_of_two` (true exactly on positive powers of two,
i.e. `count_ones() == 1`), in its standard branch-free characterization
`n ≠ 0 ∧ n & (n − 1) = 0`, proved equal to `∃ k, n = 2^k` in
`is_power_of_two_iff` below. -/
def is_power_of_two (n : Nat) : Bool :=
  n != 0 && n &&& (n - 1) == 0

/-- `usize::next_power_of_two` (returns 1 on 0 and 1; otherwise
`1 << (BITS - (n-1).leading_zeros())`, i.e. `2^(⌊log₂(n−1)⌋ + 1)`).
Uses the structurally-recursive `log2` defined above, which agrees with
the mathematical floor-log₂ on the whole `usize` range
(`log2_correct`). -/
def next_power_of_two (n : Nat) : Nat :=
  if n ≤ 1 then 1 else 2 ^ (log2 (n - 1) + 1)

/-- Pointwise update of a memory of free-block header sizes. -/
def updateMem (m : Nat → Nat) (a v : Nat) : Nat → Nat :=
  fun x => if x = a then v else m x

/-- The error taxonomy of §7 of the spec.  The Rust code returns the unit
struct `AllocErr` everywhere; the constructors record which return site
(per the code's TODO comments and the spec's taxonomy) produced the
error. -/
inductive AllocError
  | unsupportedAlignment
  | unsupportedSize
  | frameExhausted
deriving DecidableEq

instance {ε α : Type} [DecidableEq ε] [DecidableEq α] : DecidableEq (Except ε α) :=
  fun a b =>
    match a, b with
    | .error e, .error f =>
      if h : e = f then .isTrue (by rw [h]) else .isFalse (fun hh => h (by injection hh))
    | .error _, .ok _ => .isFalse (fun hh => Except.noConfusion hh)
    | .ok _, .error _ => .isFalse (fun hh => Except.noConfusion hh)
    | .ok x, .ok y =>
      if h : x = y then .isTrue (by rw [h]) else .isFalse (fun hh => h (by injection hh))

/-- The allocator state (`struct Heap<'a, F>`). -/
structure Heap where
  min_block_size : Nat
  min_block_size_log2 : Nat
  heap_size : Nat
  free_lists : List (List Nat)
  base_ptr : Nat
  mem : Nat → Nat

/-- `Heap::block_size`. -/
def block_size (h : Heap) (F size align : Nat) : Except AllocError Nat :=
  if is_power_of_two align = false then .error .unsupportedAlignment
  else if align > F then .error .unsupportedAlignment
  else
    let size := max size align
    let size := max size h.min_block_size
    let size := next_power_of_two size
    if size > h.heap_size then .error .unsupportedSize
    else .ok size

/-- `Heap::order_from_size`: `size.log2() - self.min_block_size_log2`
(using the bit-hack `log2` from `log2.rs`). -/
def order_from_size (h : Heap) (size : Nat) : Nat :=
  log2 size - h.min_block_size_log2

/-- `Heap::block_order`. -/
def block_order (h : Heap) (F size align : Nat) : Except AllocError Nat :=
  (block_size h F size align).map (order_from_size h)

/-- `Heap::push_block_order`: push the block onto the free list of the
given order. -/
def push_block_order (h : Heap) (block order : Nat) : Heap :=
  { h with free_lists := h.free_lists.set order (block :: h.free_lists.getD order []) }

/-- `Heap::push_block`: the order is computed from the pushed block's
`size` header field. -/
def push_block (h : Heap) (block : Nat) : Heap :=
  push_block_order h block (order_from_size h (h.mem block))

/-- `Heap::get_buddy`. -/
def get_buddy (h : Heap) (block order : Nat) : Option Nat :=
  let size := 1 <<< (h.min_block_size_log2 + order)
  if size = h.heap_size then none
  else
    let relative_offset := block - h.base_ptr
    some (h.base_ptr + (relative_offset ^^^ size))

/-- `FreeBlock::split`: halve the `size` header of `block`, write a new
header of the halved size at `block + size/2`, and return the new memory
together with the pointer to the split-off half. -/
def split (m : Nat → Nat) (block : Nat) : (Nat → Nat) × Nat :=
  let m := updateMem m block (m block >>> 1)
  let size := m block
  let split_ptr := block + size
  (updateMem m split_ptr size, split_ptr)

/-- `FreeBlock::merge`: keep the lower address, store the summed size
there, and return the merged block pointer. -/
def merge (m : Nat → Nat) (a b : Nat) : (Nat → Nat) × Nat :=
  let block := min a b
  (updateMem m block (m a + m b), block)

/-- `Heap::refill`: take one frame from the provider, write a `FreeBlock`
header of size `FRAME_SIZE` at its base address (`FreeBlock::from_frame`),
push it via `push_block`, and grow `heap_size` by `FRAME_SIZE`. -/
def refill (h : Heap) (F : Nat) (frames : List Nat) :
    Except AllocError (Heap × List Nat) :=
  match frames with
  | [] => .error .frameExhausted
  | f :: rest =>
    let h := { h with mem := updateMem h.mem f F }
    let h := push_block h f
    .ok ({ h with heap_size := h.heap_size + F }, rest)

/-- The body of `Heap::alloc`'s scan
`for current_order in min_order..self.free_lists.len()`, over the list of
remaining orders.  Popping a block runs the inner split loop
`for split_order in current_order..min_order` — translated verbatim,
including its (empty, see claim C1) iteration range
`List.range' current_order (min_order - current_order)`. -/
def alloc_scan (h : Heap) (min_order : Nat) : List Nat → Option (Heap × Nat)
  | [] => none
  | current_order :: rest =>
    match h.free_lists.getD current_order [] with
    | [] => alloc_scan h min_order rest
    | block :: tl =>
      let h1 := { h with free_lists := h.free_lists.set current_order tl }
      let h2 := (List.range' current_order (min_order - current_order)).foldl
        (fun hh split_order =>
          let ms := split hh.mem block
          push_block_order { hh with mem := ms.1 } ms.2 split_order) h1
      some (h2, block)

/-- `Heap::alloc`.  The Rust function is recursive (refill, then retry the
whole allocation); `fuel` bounds the recursion depth and `none` means the
bound was hit, never an allocation failure. -/
def alloc (F size align : Nat) :
    Nat → Heap → List Nat → Option (Except AllocError Nat × Heap × List Nat)
  | 0, _, _ => none
  | fuel + 1, h, frames =>
    match block_order h F size align with
    | .error e => some (.error e, h, frames)
    | .ok min_order =>
      match alloc_scan h min_order
          (List.range' min_order (h.free_lists.length - min_order)) with
      | some (h1, block) => some (.ok block, h1, frames)
      | none =>
        match refill h F frames with
        | .error e => some (.error e, h, frames)
        | .ok (h1, frames1) => alloc F size align fuel h1 frames1

/-- Modelled from the spec: `CursorMut::find_and_remove`, called by
`Heap::dealloc`, is not under `src/` (no definition of it exists in the
sources; only the call site).  Per the spec it finds the buddy "by linear
scan and removed if matched".  It scans the free list from the front and
removes the first node whose address equals `buddy`; `none` means no
match. -/
def find_and_remove (buddy : Nat) : List Nat → Option (List Nat)
  | [] => none
  | x :: xs => if x = buddy then some xs else (find_and_remove buddy xs).map (x :: ·)

/-- The `while let Some(buddy) = self.get_buddy(block, order)` loop of
`Heap::dealloc`, followed by the final `push_block_order`.  Each merging
iteration removes one node from `free_lists[order]`, so the list length
bounds the iteration count; `fuel` makes that explicit (`none` = fuel ran
out, which a sufficiently large fuel never hits). -/
def dealloc_loop : Nat → Heap → Nat → Nat → Option Heap
  | 0, _, _, _ => none
  | fuel + 1, h, block, order =>
    match get_buddy h block order with
    | none => some (push_block_order h block order)
    | some buddy =>
      match find_and_remove buddy (h.free_lists.getD order []) with
      | some newList =>
        let h1 := { h with free_lists := h.free_lists.set order newList }
        let mm := merge h1.mem block buddy
        dealloc_loop fuel { h1 with mem := mm.1 } mm.2 order
      | none => some (push_block_order h block order)

/-- `Heap::dealloc`: recompute the order from the layout (`.expect`
panics, modelled as `none`, on an invalid layout), write a fresh header
carrying `layout.size()` at `ptr` (`FreeBlock::from_ptr_size`), then run
the merge loop. -/
def dealloc (h : Heap) (F fuel ptr size align : Nat) : Option Heap :=
  match block_order h F size align with
  | .error _ => none
  | .ok order =>
    dealloc_loop fuel { h with mem := updateMem h.mem ptr size } ptr order

/-! ### `intruder-alarm/src/list/mod.rs` — the intrusive doubly-linked list

Nodes are addresses (`Nat`), and the `Links` embedded in each node live in
a node memory `Nat → Links`.  A `Link<N>` is an `Option Nat` (`none` = the
empty link).  A `List` value holds `head`, `tail` and `len`; the owning
reference (`UnsafeRef`) to a node is just its address.  Every operation
returns the updated node memory and list value (cursor operations also
involve the cursor position, an `Option Nat`). -/

/-- The `next`/`prev` link pair embedded in a node (`struct Links<T>`). -/
structure Links where
  next : Option Nat
  prev : Option Nat
deriving DecidableEq

/-- The `List` header: links to head and tail nodes plus the length. -/
structure ListSt where
  head : Option Nat
  tail : Option Nat
  len : Nat
deriving DecidableEq

/-- Pointwise update of a node memory. -/
def updateLinks (m : Nat → Links) (a : Nat) (l : Links) : Nat → Links :=
  fun x => if x = a then l else m x

/-- `List::push_front_node`. -/
def push_front_node (m : Nat → Links) (l : ListSt) (node : Nat) :
    (Nat → Links) × ListSt :=
  let m := updateLinks m node ⟨l.head, none⟩
  match l.head with
  | none => (m, ⟨some node, some node, l.len + 1⟩)
  | some hd => (updateLinks m hd ⟨(m hd).next, some node⟩, ⟨some node, l.tail, l.len + 1⟩)

/-- `List::push_back_node`. -/
def push_back_node (m : Nat → Links) (l : ListSt) (node : Nat) :
    (Nat → Links) × ListSt :=
  let m := updateLinks m node ⟨none, l.tail⟩
  match l.tail with
  | none => (m, ⟨some node, some node, l.len + 1⟩)
  | some tl => (updateLinks m tl ⟨some node, (m tl).prev⟩, ⟨l.head, some node, l.len + 1⟩)

/-- `List::pop_front_node`: detach the head node (its links are taken,
leaving both empty), move `head` to its old `next`, clear the new head's
`prev` (or empty `tail` if the list became empty), and return the node. -/
def pop_front_node (m : Nat → Links) (l : ListSt) :
    Option ((Nat → Links) × ListSt × Nat) :=
  match l.head with
  | none => none
  | some node =>
    let links := m node
    let m := updateLinks m node ⟨none, none⟩
    match links.next with
    | none => some (m, ⟨none, none, l.len - 1⟩, node)
    | some hd => some (updateLinks m hd ⟨(m hd).next, none⟩, ⟨some hd, l.tail, l.len - 1⟩, node)

/-- `List::pop_back_node`. -/
def pop_back_node (m : Nat → Links) (l : ListSt) :
    Option ((Nat → Links) × ListSt × Nat) :=
  match l.tail with
  | none => none
  | some node =>
    let links := m node
    let m := updateLinks m node ⟨none, none⟩
    match links.prev with
    | none => some (m, ⟨none, none, l.len - 1⟩, node)
    | some tl => some (updateLinks m tl ⟨none, (m tl).prev⟩, ⟨l.head, some tl, l.len - 1⟩, node)

/-- `List::cursor_mut`: the fresh mutable cursor's position is the list
head. -/
def cursor_mut (l : ListSt) : Option Nat := l.head

/-- `CursorMut::insert_node_after`: link `node` after the cursor position
`cur`; update `tail` when the cursor is at the tail (which, for the empty
`cur = none` against an empty tail, fires as well).  The cursor position
is unchanged. -/
def insert_node_after (m : Nat → Links) (l : ListSt) (cur : Option Nat) (node : Nat) :
    (Nat → Links) × ListSt :=
  let old_next : Option Nat := match cur with
    | some c => (m c).next
    | none => none
  let m := updateLinks m node ⟨old_next, cur⟩
  let m := match cur with
    | none => m
    | some c =>
      let m := match old_next with
        | none => m
        | some nx => updateLinks m nx ⟨(m nx).next, some node⟩
      updateLinks m c ⟨some node, (m c).prev⟩
  let l := if l.tail = cur then { l with tail := some node } else l
  (m, { l with len := l.len + 1 })

/-- `CursorMut::insert_node_before`.  Returns the new cursor position
(the inserted node) alongside the updated memory and list. -/
def insert_node_before (m : Nat → Links) (l : ListSt) (cur : Option Nat) (node : Nat) :
    ((Nat → Links) × ListSt) × Option Nat :=
  let old_prev : Option Nat := match cur with
    | some c => (m c).prev
    | none => none
  let m := updateLinks m node ⟨cur, old_prev⟩
  let m := match cur with
    | none => m
    | some c =>
      let m := match old_prev with
        | none => m
        | some pv => updateLinks m pv ⟨some node, (m pv).prev⟩
      updateLinks m c ⟨(m c).next, some node⟩
  let l := if l.head = cur then { l with head := some node } else l
  let l := if l.tail = cur then { l with tail := some node } else l
  ((m, { l with len := l.len + 1 }), some node)

/-- `CursorMut::remove_node`: unlink the node under the cursor, fix up
head/tail, decrement `len`, advance the cursor to the old `next`, and
return the removed node. -/
def remove_node (m : Nat → Links) (l : ListSt) (cur : Option Nat) :
    Option (((Nat → Links) × ListSt) × Option Nat × Nat) :=
  match cur with
  | none => none
  | some node =>
    let links := m node
    let m := updateLinks m node ⟨none, none⟩
    let m := match links.next with
      | none => m
      | some nx => updateLinks m nx ⟨(m nx).next, links.prev⟩
    let m := match links.prev with
      | none => m
      | some pv => updateLinks m pv ⟨links.next, (m pv).prev⟩
    let l := { l with len := l.len - 1 }
    let l := if l.head = some node then { l with head := links.next } else l
    let l := if l.tail = some node then { l with tail := links.prev } else l
    some ((m, l), links.next, node)

/-- Number of nodes reached by forward traversal from `start`, following
`next` links, cut off by `fuel`. -/
def count_forward (m : Nat → Links) : Nat → Option Nat → Nat
  | 0, _ => 0
  | _ + 1, none => 0
  | fuel + 1, some a => 1 + count_forward m fuel (m a).next

/-- The representation predicate tying a node memory and a `List` value to
the element sequence `ns` (front first): head/tail/len agree with `ns`,
the addresses are distinct, and each node's `next`/`prev` links point to
its neighbours in `ns`. -/
def isListOf (m : Nat → Links) (l : ListSt) (ns : List Nat) : Prop :=
  l.head = ns.head? ∧ l.tail = ns.getLast? ∧ l.len = ns.length ∧ ns.Nodup ∧
  ∀ i, (hi : i < ns.length) →
    (m (ns.get ⟨i, hi⟩)).next = ns.get? (i + 1) ∧
    (m (ns.get ⟨i, hi⟩)).prev = (if i = 0 then none else ns.get? (i - 1))

instance (m : Nat → Links) (l : ListSt) (ns : List Nat) : Decidable (isListOf m l ns) := by
  unfold isListOf
  infer_instance

/-! ### Reachable heap states

The allocator's public interface is `alloc`/`dealloc` plus `refill`
(called only from `alloc`).  A configuration is the heap together with
the frame provider's remaining frames and the set of outstanding
allocations; a step is one `alloc` call (with any layout, recording a
returned block as allocated) or one `dealloc` call on an outstanding
allocation (with any layout — the caller's layout contract is not needed
for the alignment claim). -/

structure Config where
  heap : Heap
  frames : List Nat
  allocated : List Nat

/-- One public allocator operation. -/
inductive Step (F : Nat) : Config → Config → Prop
  | alloc (c : Config) (fuel size align : Nat) (res : Except AllocError Nat)
      (h : Heap) (fr : List Nat)
      (heq : alloc F size align fuel c.heap c.frames = some (res, h, fr)) :
      Step F c ⟨h, fr, match res with
        | .ok a => a :: c.allocated
        | .error _ => c.allocated⟩
  | dealloc (c : Config) (fuel ptr size align : Nat) (h : Heap)
      (hptr : ptr ∈ c.allocated)
      (heq : dealloc c.heap F fuel ptr size align = some h) :
      Step F c ⟨h, c.frames, c.allocated.erase ptr⟩

/-- Configurations reachable from `c0` by allocator operations. -/
inductive Reach (F : Nat) (c0 : Config) : Config → Prop
  | refl : Reach F c0 c0
  | step {c c1 : Config} : Reach F c0 c → Step F c c1 → Reach F c0 c1

/-- Every block address on a free list is a multiple of `FRAME_SIZE`. -/
def lists_aligned (F : Nat) (h : Heap) : Prop :=
  ∀ l ∈ h.free_lists, ∀ a ∈ l, F ∣ a

/-- The frame-alignment invariant: all free blocks, all provider frames
(the provider contract: frames are `FRAME_SIZE`-aligned), and all
outstanding allocations sit at multiples of `FRAME_SIZE`. -/
def frame_aligned (F : Nat) (c : Config) : Prop :=
  lists_aligned F c.heap ∧ (∀ f ∈ c.frames, F ∣ f) ∧ (∀ a ∈ c.allocated, F ∣ a)

lemma log2Go_eq_log2GoE (v r : Nat) :
    log2Go [5, 4, 3, 2, 1, 0] v r = log2GoE [5, 4, 3, 2, 1, 0] v r := by
  simp only [log2Go, log2GoE, B, S, List.getD]
  norm_num

lemma mask_bit_true {s j : Nat} (h1 : s ≤ j) (h2 : j < 2 * s) :
    ((2 ^ s - 1) * 2 ^ s).testBit j = true := by
  rw [Nat.mul_comm, Nat.testBit_mul_pow_two]
  simp only [ge_iff_le, h1, decide_True, Bool.true_and]
  rw [Nat.testBit_two_pow_sub_one]
  simp
  omega

lemma mask_bit_of_true {s j : Nat} (h : ((2 ^ s - 1) * 2 ^ s).testBit j = true) :
    s ≤ j ∧ j < 2 * s := by
  rw [Nat.mul_comm, Nat.testBit_mul_pow_two, Nat.testBit_two_pow_sub_one] at h
  simp only [ge_iff_le, Bool.and_eq_true, decide_eq_true_eq] at h
  omega

/-- For `v < 2^(2s)`, the mask test `v & ((2^s − 1) << s) ≠ 0` decides
whether `v ≥ 2^s`. -/
lemma mask_test {s v : Nat} (hv : v < 2 ^ (2 * s)) :
    (v &&& ((2 ^ s - 1) * 2 ^ s) ≠ 0) ↔ 2 ^ s ≤ v := by
  constructor
  · intro hne
    obtain ⟨i, hi⟩ := Nat.ne_zero_implies_bit_true hne
    rw [Nat.testBit_and, Bool.and_eq_true] at hi
    obtain ⟨hvi, hmi⟩ := hi
    obtain ⟨hsi, -⟩ := mask_bit_of_true hmi
    calc 2 ^ s ≤ 2 ^ i := Nat.pow_le_pow_right (by norm_num) hsi
    _ ≤ v := Nat.testBit_implies_ge hvi
  · intro hle
    obtain ⟨i, hsi, hvi⟩ := Nat.ge_two_pow_implies_high_bit_true hle
    intro hzero
    have hi2s : i < 2 * s := by
      by_contra hge
      have : v < 2 ^ i :=
        lt_of_lt_of_le hv (Nat.pow_le_pow_right (by norm_num) (by omega))
      rw [Nat.testBit_lt_two_pow this] at hvi
      exact Bool.false_ne_true hvi
    have : (v &&& ((2 ^ s - 1) * 2 ^ s)).testBit i = true := by
      rw [Nat.testBit_and, hvi, mask_bit_true hsi hi2s]
      rfl
    rw [hzero, Nat.zero_testBit] at this
    exact Bool.false_ne_true this

lemma log2_unfold (n : Nat) : Nat.log2 n = if n ≥ 2 then Nat.log2 (n / 2) + 1 else 0 := by
  conv_lhs => rw [Nat.log2]

lemma log2_div_pow {v : Nat} : ∀ s, 2 ^ s ≤ v → Nat.log2 (v / 2 ^ s) + s = Nat.log2 v := by
  intro s
  induction s generalizing v with
  | zero => intro _; simp
  | succ s ih =>
    intro hle
    have h2 : (2 : Nat) ≤ v := by
      calc (2 : Nat) = 2 ^ 1 := by norm_num
      _ ≤ 2 ^ (s + 1) := Nat.pow_le_pow_right (by norm_num) (by omega)
      _ ≤ v := hle
    have hdiv : v / 2 ^ (s + 1) = v / 2 / 2 ^ s := by
      rw [Nat.div_div_eq_div_mul, pow_succ, Nat.mul_comm (2 ^ s) 2, Nat.mul_comm 2 (2 ^ s)]
    have hle' : 2 ^ s ≤ v / 2 := by
      rw [Nat.le_div_iff_mul_le (by norm_num)]
      calc 2 ^ s * 2 = 2 ^ (s + 1) := (pow_succ 2 s).symm
      _ ≤ v := hle
    have := ih hle'
    rw [hdiv, log2_unfold v, if_pos h2]
    omega

lemma log2_lt_of_lt_pow {v s : Nat} (h : v < 2 ^ s) : Nat.log2 v < s ∨ v = 0 := by
  rcases Nat.eq_zero_or_pos v with h0 | hpos
  · right; exact h0
  · left
    by_contra hge
    push_neg at hge
    have h1 : 2 ^ s ≤ 2 ^ Nat.log2 v := Nat.pow_le_pow_right (by norm_num) hge
    have h2 : 2 ^ Nat.log2 v ≤ v := Nat.log2_self_le (by omega)
    omega

/-- Loop invariant for the bit-hack: running the remaining iterations
`[i, ..., 0]` on a value `v < 2^(2^(i+1))` ORs `⌊log₂ v⌋` into the
accumulated result. -/
lemma log2GoE_correct : ∀ i v r, 0 < v → v < 2 ^ 2 ^ (i + 1) →
    log2GoE (descList i) v r = r ||| Nat.log2 v := by
  intro i
  induction i with
  | zero =>
    intro v r hpos hlt
    have hlt4 : v < 4 := by norm_num at hlt; omega
    have h1 : Nat.log2 1 = 0 := by rw [log2_unfold]; norm_num
    have h2 : Nat.log2 2 = 1 := by rw [log2_unfold, log2_unfold]; norm_num
    have h3 : Nat.log2 3 = 1 := by rw [log2_unfold, log2_unfold]; norm_num
    rcases (by omega : v = 1 ∨ v = 2 ∨ v = 3) with h | h | h <;> subst h
    · simp only [descList, log2GoE, h1]
      rw [if_neg (by decide)]
      exact (Nat.or_zero r).symm
    · simp only [descList, log2GoE, h2]
      rw [if_pos (by decide)]
      rfl
    · simp only [descList, log2GoE, h3]
      rw [if_pos (by decide)]
      rfl
  | succ i ih =>
    intro v r hpos hlt
    have hsplit : 2 ^ 2 ^ (i + 1 + 1) = 2 ^ (2 * 2 ^ (i + 1)) := by
      rw [pow_succ, Nat.mul_comm]
    rw [hsplit] at hlt
    simp only [descList, log2GoE]
    by_cases hmask : v &&& ((2 ^ 2 ^ (i + 1) - 1) * 2 ^ 2 ^ (i + 1)) ≠ 0
    · rw [if_pos hmask]
      have hge : 2 ^ 2 ^ (i + 1) ≤ v := (mask_test hlt).1 hmask
      have hshift : v >>> 2 ^ (i + 1) = v / 2 ^ 2 ^ (i + 1) := Nat.shiftRight_eq_div_pow v _
      have hpos' : 0 < v / 2 ^ 2 ^ (i + 1) := Nat.div_pos hge (Nat.pos_pow_of_pos _ (by norm_num))
      have hlt' : v / 2 ^ 2 ^ (i + 1) < 2 ^ 2 ^ (i + 1) := by
        rw [Nat.div_lt_iff_lt_mul (Nat.pos_pow_of_pos _ (by norm_num))]
        calc v < 2 ^ (2 * 2 ^ (i + 1)) := hlt
        _ = 2 ^ 2 ^ (i + 1) * 2 ^ 2 ^ (i + 1) := by rw [two_mul, pow_add]
      rw [hshift, ih _ _ hpos' hlt', Nat.or_assoc]
      congr 1
      have hlog : Nat.log2 (v / 2 ^ 2 ^ (i + 1)) + 2 ^ (i + 1) = Nat.log2 v :=
        log2_div_pow _ hge
      have hloglt : Nat.log2 (v / 2 ^ 2 ^ (i + 1)) < 2 ^ (i + 1) := by
        rcases log2_lt_of_lt_pow hlt' with h | h
        · exact h
        · omega
      have := Nat.mul_add_lt_is_or hloglt 1
      rw [Nat.mul_one] at this
      rw [← this, Nat.add_comm, hlog]
    · rw [if_neg hmask]
      push_neg at hmask
      have hlt' : v < 2 ^ 2 ^ (i + 1) := by
        by_contra hge
        push_neg at hge
        exact ((mask_test hlt).2 hge) hmask
      exact ih _ _ hpos hlt'

/-- `Log2::log2` agrees with the mathematical floor-log₂ on every nonzero
64-bit value. -/
lemma log2_correct {v : Nat} (hpos : 0 < v) (hlt : v < 2 ^ 64) : log2 v = Nat.log2 v := by
  have h5 : descList 5 = [5, 4, 3, 2, 1, 0] := by rfl
  have : (2 : Nat) ^ 2 ^ (5 + 1) = 2 ^ 64 := by norm_num
  rw [log2, log2Go_eq_log2GoE, ← h5, log2GoE_correct 5 v 0 hpos (by omega), Nat.zero_or]

lemma and_pred_eq_zero_iff : ∀ n, 0 < n → (n &&& (n - 1) = 0 ↔ ∃ k, n = 2 ^ k) := by
  intro n
  induction n using Nat.strong_induction_on with
  | _ n ih =>
    intro hpos
    match n, hpos with
    | 1, _ =>
      constructor
      · intro _
        exact ⟨0, rfl⟩
      · intro _
        decide
    | n + 2, _ =>
      constructor
      · intro h0
        have h0' : (n + 2) &&& (n + 1) = 0 := h0
        have hA2 : ((n + 2) / 2) &&& ((n + 1) / 2) = 0 := by
          rw [← Nat.and_div_two, h0']
        by_cases hpar : (n + 2) % 2 = 0
        · have h1 : (n + 1) / 2 = (n + 2) / 2 - 1 := by omega
          rw [h1] at hA2
          obtain ⟨k, hk⟩ := (ih ((n + 2) / 2) (by omega) (by omega)).1 hA2
          refine ⟨k + 1, ?_⟩
          rw [pow_succ]
          omega
        · have h1 : (n + 1) / 2 = (n + 2) / 2 := by omega
          rw [h1, Nat.and_self] at hA2
          omega
      · rintro ⟨k, hk⟩
        match k, hk with
        | 0, hk => omega
        | k + 1, hk =>
          rw [pow_succ] at hk
          have hmod : ((n + 2) &&& (n + 1)) % 2 = 0 := by
            rcases Nat.mod_two_eq_zero_or_one ((n + 2) &&& (n + 1)) with h | h
            · exact h
            · have := Nat.and_mod_two_eq_one.1 h
              omega
          have hdiv2 : ((n + 2) &&& (n + 1)) / 2 = ((n + 2) / 2) &&& ((n + 1) / 2) :=
            Nat.and_div_two
          have h1 : (n + 2) / 2 = 2 ^ k := by omega
          have h2 : (n + 1) / 2 = 2 ^ k - 1 := by omega
          have hrec : ((n + 2) / 2) &&& ((n + 1) / 2) = 0 := by
            rw [h1, h2]
            have := (ih (2 ^ k) (by omega) (Nat.pos_pow_of_pos _ (by norm_num))).2 ⟨k, rfl⟩
            exact this
          show (n + 2) &&& (n + 1) = 0
          omega

lemma is_power_of_two_iff (n : Nat) : is_power_of_two n = true ↔ ∃ k, n = 2 ^ k := by
  rcases Nat.eq_zero_or_pos n with h0 | hpos
  · subst h0
    constructor
    · intro h
      simp [is_power_of_two] at h
    · rintro ⟨k, hk⟩
      have : 0 < 2 ^ k := Nat.pos_pow_of_pos k (by norm_num)
      omega
  · simp only [is_power_of_two, Bool.and_eq_true, bne_iff_ne, ne_eq, beq_iff_eq]
    rw [← and_pred_eq_zero_iff n hpos]
    constructor
    · rintro ⟨-, h⟩
      exact h
    · intro h
      exact ⟨by omega, h⟩

/-- C9 (helper): the claim that the split loop confirms for every order.
The first conjunct is `log2_correct` restated; kept as a lemma shared by
several theorems below. -/
lemma log2_pow_lt {l : Nat} (hl : l < 64) : log2 (2 ^ l) = l := by
  rw [log2_correct (Nat.pos_pow_of_pos _ (by norm_num))
      (Nat.pow_lt_pow_right (by norm_num) hl)]
  rw [Nat.log2_eq_log_two, Nat.log_pow (by norm_num)]

/-- C9: `Log2::log2` computes the floor of the base-2 logarithm on every
nonzero `usize`, and consequently `order_from_size` is exact on
power-of-two block sizes: `order_from_size (min_block_size << k) = k`
whenever the shift does not overflow. -/
theorem c9_log2_floor_and_order_exact :
    (∀ n, 1 ≤ n → n < 2 ^ 64 → log2 n = Nat.log2 n) ∧
    (∀ (h : Heap) (k : Nat), h.min_block_size = 2 ^ h.min_block_size_log2 →
      h.min_block_size_log2 + k < 64 →
      order_from_size h (h.min_block_size <<< k) = k) := by
  constructor
  · intro n h1 h2
    exact log2_correct h1 h2
  · intro h k hmbs hlt
    rw [order_from_size, hmbs, Nat.shiftLeft_eq, ← pow_add, log2_pow_lt hlt]
    omega

/-- Witness for C9 at concrete inputs. -/
theorem c9_witness :
    log2 37 = Nat.log2 37 ∧
    order_from_size ⟨16, 4, 1, [], 0, fun _ => 0⟩ (16 <<< 3) = 3 :=
  ⟨c9_log2_floor_and_order_exact.1 37 (by decide) (by decide),
   c9_log2_floor_and_order_exact.2 ⟨16, 4, 1, [], 0, fun _ => 0⟩ 3 (by decide) (by decide)⟩

open Classical in
/-- C4: `block_size` fails on a non-power-of-two alignment or an alignment
above `FRAME_SIZE`, and otherwise returns
`next_power_of_two (max (max size align) min_block_size)` unless that
rounded value exceeds the current `heap_size` — the spec's seven steps in
order. -/
theorem c4_block_size_steps (h : Heap) (F size align : Nat) :
    block_size h F size align =
      if (∃ k, align = 2 ^ k) ∧ align ≤ F then
        if next_power_of_two (max (max size align) h.min_block_size) ≤ h.heap_size then
          Except.ok (next_power_of_two (max (max size align) h.min_block_size))
        else Except.error AllocError.unsupportedSize
      else Except.error AllocError.unsupportedAlignment := by
  by_cases hpk : ∃ k, align = 2 ^ k
  · have hp : is_power_of_two align = true := (is_power_of_two_iff align).2 hpk
    by_cases hf : align ≤ F
    · have hf' : ¬ align > F := by omega
      rw [if_pos ⟨hpk, hf⟩]
      by_cases hs : next_power_of_two (max (max size align) h.min_block_size) ≤ h.heap_size
      · have hs' : ¬ next_power_of_two (max (max size align) h.min_block_size) >
            h.heap_size := by omega
        rw [if_pos hs]
        simp [block_size, hp, hf', hs']
      · have hs' : next_power_of_two (max (max size align) h.min_block_size) >
            h.heap_size := by omega
        rw [if_neg hs]
        simp [block_size, hp, hf', hs']
    · rw [if_neg (by tauto)]
      simp [block_size, hp, (by omega : align > F)]
  · have hp : is_power_of_two align = false := by
      rcases hb : is_power_of_two align with _ | _
      · rfl
      · exact absurd ((is_power_of_two_iff align).1 hb) hpk
    rw [if_neg (by tauto)]
    simp [block_size, hp]

/-- C1 (the code at the spec's "split then reassemble" scenario): a heap
whose only free block is the single top-order block (order 2, 64 bytes,
`min_block_size = 16`) serves an allocation of `min_block_size`.  The
split loop `for split_order in current_order..min_order` iterates the
empty range `current_order..min_order`, so the code performs no split at
all: the allocation returns the whole 64-byte block (its header still
reads 64), and every lower-order free list stays empty — where the claim
requires one split remainder at each of orders 0 and 1 and a returned
block of size 16. -/
theorem c1_split_loop_never_runs :
    (alloc 64 16 16 1 ⟨16, 4, 64, [[], [], [0]], 0, fun a => if a = 0 then 64 else 0⟩ []).map
        (fun r => (r.1, r.2.1.free_lists, r.2.1.mem 0)) =
      some (Except.ok 0, [[], [], []], 64) := by
  decide

/-- C2 (the code on a dealloc that should buddy-merge upward): heap with
`min_block_size = 16`, `heap_size = 64`, base 0, and the order-0 buddy at
address 16 free.  `dealloc(0, size 10, align 1)` recomputes the rounded
size 16 (order 0), but writes the *raw* `layout.size()` 10 into the header
at 0, merges with the buddy at 16 into a block whose stored size is
10 + 16 = 26 (not 32), never increments `order`, and pushes the merged
block back onto the order-0 free list — where the claim requires a header
carrying the recomputed size 16, a merged size of 32, and a push at
order 1. -/
theorem c2_merge_never_raises_order :
    (dealloc ⟨16, 4, 64, [[16], [], []], 0, fun a => if a = 16 then 16 else 0⟩ 64 3 0 10 1).map
        (fun h => (h.free_lists, h.mem 0)) =
      some ([[0], [], []], 26) := by
  decide

/-- C6 (the code after two refills): starting from a heap of
`heap_size = 64` (a power of two) with a 64-byte frame provider, each
`refill` adds `FRAME_SIZE = 64`, so after two refills `heap_size = 192 =
3 · 64`, which is not a power of two — contradicting the `heap_size`
field's documented invariant. -/
theorem c6_heap_size_not_pow2_after_refills :
    ((refill ⟨16, 4, 64, [[], [], []], 0, fun _ => 0⟩ 64 [128, 192]).bind
        fun hf => (refill hf.1 64 hf.2).map fun hf2 => hf2.1.heap_size) =
      Except.ok 192 ∧
    is_power_of_two 192 = false := by
  constructor
  · decide
  · decide

/-- C5 (counterexample to "retries the whole allocation exactly once"):
heap of size 128 with all free lists empty and a provider holding two
64-byte frames.  A request whose rounded size is 128 (order 3) finds
nothing, refills (frame at order 2), retries, finds nothing again,
refills a second time, retries, and only then propagates
`FrameExhausted` — the provider was invoked more than once and both
refills' mutations (heap grown to 256, both frames consumed) are kept. -/
theorem c5_two_refills_one_call :
    (alloc 64 128 16 3 ⟨16, 4, 128, [[], [], [], []], 0, fun _ => 0⟩ [1024, 2048]).map
        (fun r => (r.1, r.2.1.heap_size, r.2.2)) =
      some (Except.error AllocError.frameExhausted, 256, []) := by
  decide

/-- C5 (amended): when no free list at or above `min_order` holds a block,
`alloc` performs one refill — consuming exactly the provider's next frame,
writing a `FRAME_SIZE` header at its base, pushing it at the order
matching the frame size, and growing `heap_size` by one frame — and then
retries the whole allocation *recursively* (so a still-failing retry
refills again); an exhausted provider's failure is propagated with no
refill and no state change. -/
theorem c5_amended_refill_then_recursive_retry (F size align fuel : Nat) (h : Heap)
    (frames : List Nat) (min_order : Nat)
    (hbo : block_order h F size align = Except.ok min_order)
    (hscan : alloc_scan h min_order
      (List.range' min_order (h.free_lists.length - min_order)) = none) :
    alloc F size align (fuel + 1) h frames =
      match frames with
      | [] => some (Except.error AllocError.frameExhausted, h, frames)
      | f :: rest =>
          alloc F size align fuel
            { min_block_size := h.min_block_size
              min_block_size_log2 := h.min_block_size_log2
              heap_size := h.heap_size + F
              free_lists := h.free_lists.set (order_from_size h F)
                (f :: h.free_lists.getD (order_from_size h F) [])
              base_ptr := h.base_ptr
              mem := updateMem h.mem f F } rest := by
  cases frames with
  | nil => simp [alloc, hbo, hscan, refill]
  | cons f rest =>
    simp only [alloc, hbo, hscan, refill, push_block, push_block_order, order_from_size,
      updateMem]
    simp

/-- Witness for the amended C5 at a concrete input. -/
theorem c5_amended_witness :
    block_order ⟨16, 4, 64, [[]], 0, fun _ => 0⟩ 64 16 16 = Except.ok 0 ∧
    alloc 64 16 16 1 ⟨16, 4, 64, [[]], 0, fun _ => 0⟩ [] =
      some (Except.error AllocError.frameExhausted, ⟨16, 4, 64, [[]], 0, fun _ => 0⟩, []) :=
  ⟨by decide,
   c5_amended_refill_then_recursive_retry 64 16 16 0 ⟨16, 4, 64, [[]], 0, fun _ => 0⟩ [] 0
     (by decide) (by rfl)⟩

/-- C8: an allocation request whose alignment is not a power of two fails
with the unsupported-alignment error before any mutation: the returned
heap and frame provider are exactly the input ones. -/
theorem c8_bad_align_no_mutation (h : Heap) (F size align fuel : Nat) (frames : List Nat)
    (halign : is_power_of_two align = false) :
    alloc F size align (fuel + 1) h frames =
      some (Except.error AllocError.unsupportedAlignment, h, frames) := by
  simp [alloc, block_order, block_size, halign, Except.map]

/-- Witness for C8 with `align = 3`. -/
theorem c8_witness :
    is_power_of_two 3 = false ∧
    alloc 64 16 3 1 ⟨16, 4, 64, [[0]], 0, fun _ => 0⟩ [] =
      some (Except.error AllocError.unsupportedAlignment,
        ⟨16, 4, 64, [[0]], 0, fun _ => 0⟩, []) :=
  ⟨by decide, c8_bad_align_no_mutation ⟨16, 4, 64, [[0]], 0, fun _ => 0⟩ 64 16 3 0 [] (by decide)⟩

lemma updateLinks_self {m : Nat → Links} {a : Nat} {v : Links} (h : m a = v) :
    updateLinks m a v = m := by
  funext x
  by_cases hx : x = a
  · subst hx
    simp [updateLinks, h]
  · simp [updateLinks, hx]

lemma push_front_pop_front (m : Nat → Links) (l : ListSt) (ns : List Nat) (node : Nat)
    (hinv : isListOf m l ns) (hnode : node ∉ ns) (hm : m node = ⟨none, none⟩) :
    pop_front_node (push_front_node m l node).1 (push_front_node m l node).2 =
      some (m, l, node) := by
  obtain ⟨hhead, htail, hlen, hnodup, hlinks⟩ := hinv
  obtain ⟨lh, lt, ll⟩ := l
  cases ns with
  | nil =>
    have h1 : lh = none := by simpa using hhead
    have h2 : lt = none := by simpa using htail
    have h3 : ll = 0 := by simpa using hlen
    subst h1; subst h2; subst h3
    simp only [push_front_node]
    rw [updateLinks_self hm]
    simp only [pop_front_node, hm]
    rw [updateLinks_self hm]
  | cons a t =>
    have h1 : lh = some a := by simpa using hhead
    have h3 : ll = t.length + 1 := by simpa using hlen
    subst h1; subst h3
    have hamem : a ∈ a :: t := List.mem_cons_self a t
    have hane : ¬ (a = node) := fun h => hnode (h ▸ hamem)
    have hnea : ¬ (node = a) := fun h => hane h.symm
    have hprev0 : (m a).prev = none := by
      have h := (hlinks 0 (by simp)).2
      simpa using h
    simp only [push_front_node]
    have e1 : (updateLinks m node ⟨some a, none⟩) a = m a := by
      simp [updateLinks, hane]
    rw [e1]
    simp only [pop_front_node]
    have e2 : (updateLinks (updateLinks m node ⟨some a, none⟩) a
        ⟨(m a).next, some node⟩) node = ⟨some a, none⟩ := by
      simp [updateLinks, hnea]
    rw [e2]
    dsimp only
    have e3 : (updateLinks (updateLinks (updateLinks m node ⟨some a, none⟩) a
        ⟨(m a).next, some node⟩) node ⟨none, none⟩) a = ⟨(m a).next, some node⟩ := by
      simp [updateLinks, hane, hnea]
    rw [e3]
    dsimp only
    simp only [Option.some.injEq, Prod.mk.injEq]
    refine ⟨?_, by simp, by simp⟩
    funext x
    by_cases hx : x = a
    · subst hx
      rcases hmx : m x with ⟨mn, mp⟩
      have hmp : mp = none := by
        have h := hprev0
        rw [hmx] at h
        simpa using h
      subst hmp
      simp [updateLinks, hane, hmx]
    · by_cases hx2 : x = node
      · subst hx2
        simp [updateLinks, hnea, hm]
      · simp [updateLinks, hx, hx2]

lemma push_back_pop_back (m : Nat → Links) (l : ListSt) (ns : List Nat) (node : Nat)
    (hinv : isListOf m l ns) (hnode : node ∉ ns) (hm : m node = ⟨none, none⟩) :
    pop_back_node (push_back_node m l node).1 (push_back_node m l node).2 =
      some (m, l, node) := by
  obtain ⟨hhead, htail, hlen, hnodup, hlinks⟩ := hinv
  obtain ⟨lh, lt, ll⟩ := l
  cases ns with
  | nil =>
    have h1 : lh = none := by simpa using hhead
    have h2 : lt = none := by simpa using htail
    have h3 : ll = 0 := by simpa using hlen
    subst h1; subst h2; subst h3
    simp only [push_back_node]
    rw [updateLinks_self hm]
    simp only [pop_back_node, hm]
    rw [updateLinks_self hm]
  | cons a t =>
    have hne : (a :: t) ≠ [] := by simp
    have h2 : lt = some ((a :: t).getLast hne) := by
      rw [List.getLast?_eq_getLast _ hne] at htail
      simpa using htail
    have h3 : ll = t.length + 1 := by simpa using hlen
    subst h2; subst h3
    have hbmem : (a :: t).getLast hne ∈ a :: t := List.getLast_mem hne
    have hbne : ¬ ((a :: t).getLast hne = node) := fun h => hnode (h ▸ hbmem)
    have hneb : ¬ (node = (a :: t).getLast hne) := fun h => hbne h.symm
    have hnext0 : (m ((a :: t).getLast hne)).next = none := by
      have hi : t.length < (a :: t).length := by simp
      have h := (hlinks t.length hi).1
      have hgb : (a :: t).get ⟨t.length, hi⟩ = (a :: t).getLast hne :=
        (List.getLast_eq_get _ hne).symm
      rw [hgb] at h
      rw [h, List.get?_eq_none]
      simp
    simp only [push_back_node]
    have e1 : (updateLinks m node ⟨none, some ((a :: t).getLast hne)⟩)
        ((a :: t).getLast hne) = m ((a :: t).getLast hne) := by
      simp [updateLinks, hbne]
    rw [e1]
    simp only [pop_back_node]
    have e2 : (updateLinks (updateLinks m node ⟨none, some ((a :: t).getLast hne)⟩)
        ((a :: t).getLast hne) ⟨some node, (m ((a :: t).getLast hne)).prev⟩) node =
        ⟨none, some ((a :: t).getLast hne)⟩ := by
      simp [updateLinks, hneb]
    rw [e2]
    dsimp only
    have e3 : (updateLinks (updateLinks (updateLinks m node
        ⟨none, some ((a :: t).getLast hne)⟩) ((a :: t).getLast hne)
        ⟨some node, (m ((a :: t).getLast hne)).prev⟩) node ⟨none, none⟩)
        ((a :: t).getLast hne) = ⟨some node, (m ((a :: t).getLast hne)).prev⟩ := by
      simp [updateLinks, hbne, hneb]
    rw [e3]
    dsimp only
    simp only [Option.some.injEq, Prod.mk.injEq]
    refine ⟨?_, by simp, by simp⟩
    funext x
    by_cases hx : x = (a :: t).getLast hne
    · subst hx
      rcases hmx : m ((a :: t).getLast hne) with ⟨mn, mp⟩
      have hmn : mn = none := by
        have h := hnext0
        rw [hmx] at h
        simpa using h
      subst hmn
      simp [updateLinks, hbne, hmx]
    · by_cases hx2 : x = node
      · subst hx2
        simp [updateLinks, hneb, hm]
      · simp [updateLinks, hx, hx2]

/-- C10: pushing an unlinked, unaliased node on the front of a list and
popping the front returns exactly that node with both links empty and
restores the node memory and the list (head, tail, len, hence the element
sequence) to their state before the push; symmetrically for
`push_back_node` followed by `pop_back_node`. -/
theorem c10_push_pop_roundtrip (m : Nat → Links) (l : ListSt) (ns : List Nat) (node : Nat)
    (hinv : isListOf m l ns) (hnode : node ∉ ns) (hm : m node = ⟨none, none⟩) :
    pop_front_node (push_front_node m l node).1 (push_front_node m l node).2 =
      some (m, l, node) ∧
    pop_back_node (push_back_node m l node).1 (push_back_node m l node).2 =
      some (m, l, node) :=
  ⟨push_front_pop_front m l ns node hinv hnode hm,
   push_back_pop_back m l ns node hinv hnode hm⟩

/-- Witness for C10 on the two-element list `[10, 20]` and the fresh
node 7. -/
theorem c10_witness :
    pop_front_node
        (push_front_node
          (fun x => if x = 10 then ⟨some 20, none⟩ else
            if x = 20 then ⟨none, some 10⟩ else ⟨none, none⟩)
          ⟨some 10, some 20, 2⟩ 7).1
        (push_front_node
          (fun x => if x = 10 then ⟨some 20, none⟩ else
            if x = 20 then ⟨none, some 10⟩ else ⟨none, none⟩)
          ⟨some 10, some 20, 2⟩ 7).2 =
      some ((fun x => if x = 10 then ⟨some 20, none⟩ else
            if x = 20 then ⟨none, some 10⟩ else ⟨none, none⟩),
        ⟨some 10, some 20, 2⟩, 7) ∧
    pop_back_node
        (push_back_node
          (fun x => if x = 10 then ⟨some 20, none⟩ else
            if x = 20 then ⟨none, some 10⟩ else ⟨none, none⟩)
          ⟨some 10, some 20, 2⟩ 7).1
        (push_back_node
          (fun x => if x = 10 then ⟨some 20, none⟩ else
            if x = 20 then ⟨none, some 10⟩ else ⟨none, none⟩)
          ⟨some 10, some 20, 2⟩ 7).2 =
      some ((fun x => if x = 10 then ⟨some 20, none⟩ else
            if x = 20 then ⟨none, some 10⟩ else ⟨none, none⟩),
        ⟨some 10, some 20, 2⟩, 7) :=
  c10_push_pop_roundtrip
    (fun x => if x = 10 then ⟨some 20, none⟩ else
      if x = 20 then ⟨none, some 10⟩ else ⟨none, none⟩)
    ⟨some 10, some 20, 2⟩ [10, 20] 7 (by decide) (by decide) (by decide)

/-- C7 (the code on `insert_node_after` with an empty cursor): starting
from the empty list, `cursor_mut` yields the position `none`;
`insert_node_after(node 1)` then increments `len` to 1 and sets `tail` to
the node, but never links the node nor updates `head` (the
`if let Some(current)` block is skipped and only the tail alias check
fires) — so `len = 1` while forward traversal from `head = none` reaches 0
nodes, violating the invariant. -/
theorem c7_insert_after_breaks_invariant :
    (insert_node_after (fun _ => ⟨none, none⟩) ⟨none, none, 0⟩
        (cursor_mut ⟨none, none, 0⟩) 1).2.len = 1 ∧
    (insert_node_after (fun _ => ⟨none, none⟩) ⟨none, none, 0⟩
        (cursor_mut ⟨none, none, 0⟩) 1).2.head = none ∧
    (insert_node_after (fun _ => ⟨none, none⟩) ⟨none, none, 0⟩
        (cursor_mut ⟨none, none, 0⟩) 1).2.tail = some 1 ∧
    count_forward
        (insert_node_after (fun _ => ⟨none, none⟩) ⟨none, none, 0⟩
          (cursor_mut ⟨none, none, 0⟩) 1).1 2
        (insert_node_after (fun _ => ⟨none, none⟩) ⟨none, none, 0⟩
          (cursor_mut ⟨none, none, 0⟩) 1).2.head = 0 := by
  refine ⟨rfl, rfl, rfl, rfl⟩

lemma mem_of_mem_getD {ls : List (List Nat)} : ∀ {o a : Nat},
    a ∈ ls.getD o [] → ∃ l, l ∈ ls ∧ a ∈ l := by
  induction ls with
  | nil =>
    intro o a h
    simp [List.getD] at h
  | cons hd tl ih =>
    intro o a h
    cases o with
    | zero =>
      exact ⟨hd, List.mem_cons_self hd tl, by simpa [List.getD] using h⟩
    | succ o =>
      obtain ⟨l, hl, ha⟩ := ih (by simpa [List.getD] using h)
      exact ⟨l, List.mem_cons_of_mem hd hl, ha⟩

lemma lists_aligned_mem {F : Nat} {h : Heap} (hal : lists_aligned F h) {o a : Nat}
    (ha : a ∈ h.free_lists.getD o []) : F ∣ a := by
  obtain ⟨l, hl, ha2⟩ := mem_of_mem_getD ha
  exact hal l hl a ha2

lemma lists_aligned_set {F : Nat} {h : Heap} {o : Nat} {x : List Nat}
    (hal : lists_aligned F h) (hx : ∀ a ∈ x, F ∣ a) :
    lists_aligned F { h with free_lists := h.free_lists.set o x } := by
  intro l hl a ha
  rcases List.mem_or_eq_of_mem_set hl with hl2 | hl2
  · exact hal l hl2 a ha
  · subst hl2
    exact hx a ha

lemma push_block_order_aligned {F : Nat} {h : Heap} {b o : Nat}
    (hal : lists_aligned F h) (hb : F ∣ b) :
    lists_aligned F (push_block_order h b o) := by
  show lists_aligned F { h with free_lists := h.free_lists.set o (b :: h.free_lists.getD o []) }
  apply lists_aligned_set hal
  intro a ha
  rcases List.mem_cons.1 ha with rfl | ha2
  · exact hb
  · exact lists_aligned_mem hal ha2

lemma find_and_remove_spec {buddy : Nat} : ∀ {l l2 : List Nat},
    find_and_remove buddy l = some l2 → buddy ∈ l ∧ ∀ x ∈ l2, x ∈ l := by
  intro l
  induction l with
  | nil =>
    intro l2 h
    simp [find_and_remove] at h
  | cons hd tl ih =>
    intro l2 h
    by_cases hb : hd = buddy
    · subst hb
      rw [find_and_remove, if_pos rfl] at h
      injection h with h
      subst h
      exact ⟨List.mem_cons_self _ _, fun x hx => List.mem_cons_of_mem _ hx⟩
    · rw [find_and_remove, if_neg hb] at h
      rcases hmap : find_and_remove buddy tl with _ | tl2
      · rw [hmap] at h
        simp at h
      · rw [hmap] at h
        simp only [Option.map_some'] at h
        injection h with h
        subst h
        obtain ⟨hbud, hsub⟩ := ih hmap
        refine ⟨List.mem_cons_of_mem _ hbud, ?_⟩
        intro x hx
        rcases List.mem_cons.1 hx with rfl | hx2
        · exact List.mem_cons_self _ _
        · exact List.mem_cons_of_mem _ (hsub x hx2)

lemma alloc_scan_aligned {F : Nat} {h : Heap} {mo : Nat} :
    ∀ {os : List Nat} {h1 : Heap} {blk : Nat},
    lists_aligned F h → (∀ o ∈ os, mo ≤ o) →
    alloc_scan h mo os = some (h1, blk) →
    lists_aligned F h1 ∧ F ∣ blk := by
  intro os
  induction os with
  | nil =>
    intro h1 blk _ _ hs
    simp [alloc_scan] at hs
  | cons co rest ih =>
    intro h1 blk hal hos hs
    rw [alloc_scan] at hs
    rcases hco : h.free_lists.getD co [] with _ | ⟨b, tl⟩
    · rw [hco] at hs
      exact ih hal (fun o ho => hos o (List.mem_cons_of_mem _ ho)) hs
    · rw [hco] at hs
      have hmo : mo - co = 0 := Nat.sub_eq_zero_of_le (hos co (List.mem_cons_self _ _))
      rw [hmo] at hs
      simp only [List.range', List.foldl_nil, Option.some.injEq, Prod.mk.injEq] at hs
      obtain ⟨rfl, rfl⟩ := hs
      constructor
      · apply lists_aligned_set hal
        intro a ha
        exact lists_aligned_mem hal (show a ∈ h.free_lists.getD co [] by
          rw [hco]; exact List.mem_cons_of_mem _ ha)
      · exact lists_aligned_mem hal (show b ∈ h.free_lists.getD co [] by
          rw [hco]; exact List.mem_cons_self _ _)

lemma block_size_ok_align {h : Heap} {F size align s : Nat}
    (hs : block_size h F size align = Except.ok s) :
    is_power_of_two align = true ∧ align ≤ F := by
  simp only [block_size] at hs
  split_ifs at hs with h1 h2 h3 <;> try simp at hs
  exact ⟨by simpa using h1, by omega⟩

lemma block_order_ok_align {h : Heap} {F size align mo : Nat}
    (hbo : block_order h F size align = Except.ok mo) :
    is_power_of_two align = true ∧ align ≤ F := by
  unfold block_order at hbo
  rcases hbs : block_size h F size align with e | s
  · rw [hbs] at hbo
    simp [Except.map] at hbo
  · exact block_size_ok_align hbs

lemma refill_aligned {F : Nat} {h h1 : Heap} {fr fr1 : List Nat}
    (hal : lists_aligned F h) (hfr : ∀ f ∈ fr, F ∣ f)
    (heq : refill h F fr = Except.ok (h1, fr1)) :
    lists_aligned F h1 ∧ ∀ f ∈ fr1, F ∣ f := by
  cases fr with
  | nil => simp [refill] at heq
  | cons f rest =>
    simp only [refill, Except.ok.injEq, Prod.mk.injEq] at heq
    obtain ⟨rfl, rfl⟩ := heq
    refine ⟨?_, fun g hg => hfr g (List.mem_cons_of_mem _ hg)⟩
    exact push_block_order_aligned hal (hfr f (List.mem_cons_self _ _))

lemma alloc_aligned {F size align : Nat} :
    ∀ (fuel : Nat) {h : Heap} {fr : List Nat} {res : Except AllocError Nat}
      {h1 : Heap} {fr1 : List Nat},
    lists_aligned F h → (∀ f ∈ fr, F ∣ f) →
    alloc F size align fuel h fr = some (res, h1, fr1) →
    lists_aligned F h1 ∧ (∀ f ∈ fr1, F ∣ f) ∧
      ∀ addr, res = Except.ok addr → F ∣ addr ∧ is_power_of_two align = true ∧ align ≤ F := by
  intro fuel
  induction fuel with
  | zero =>
    intro h fr res h1 fr1 _ _ heq
    simp [alloc] at heq
  | succ fuel ih =>
    intro h fr res h1 fr1 hal hfr heq
    rw [alloc] at heq
    rcases hbo : block_order h F size align with e | mo
    · simp only [hbo, Option.some.injEq, Prod.mk.injEq] at heq
      obtain ⟨rfl, rfl, rfl⟩ := heq
      exact ⟨hal, hfr, fun addr haddr => Except.noConfusion haddr⟩
    · simp only [hbo] at heq
      rcases hscan : alloc_scan h mo (List.range' mo (h.free_lists.length - mo))
        with _ | ⟨hh, blk⟩
      · simp only [hscan] at heq
        rcases hre : refill h F fr with e | ⟨h2, fr2⟩
        · simp only [hre, Option.some.injEq, Prod.mk.injEq] at heq
          obtain ⟨rfl, rfl, rfl⟩ := heq
          exact ⟨hal, hfr, fun addr haddr => Except.noConfusion haddr⟩
        · simp only [hre] at heq
          obtain ⟨hal2, hfr2⟩ := refill_aligned hal hfr hre
          exact ih hal2 hfr2 heq
      · simp only [hscan, Option.some.injEq, Prod.mk.injEq] at heq
        obtain ⟨rfl, rfl, rfl⟩ := heq
        have hrange : ∀ o ∈ List.range' mo (h.free_lists.length - mo), mo ≤ o := by
          intro o ho
          rw [List.mem_range'] at ho
          obtain ⟨i, -, rfl⟩ := ho
          omega
        obtain ⟨hsc1, hsc2⟩ := alloc_scan_aligned hal hrange hscan
        obtain ⟨hpow, hle⟩ := block_order_ok_align hbo
        refine ⟨hsc1, hfr, ?_⟩
        intro addr haddr
        injection haddr with haddr
        subst haddr
        exact ⟨hsc2, hpow, hle⟩

lemma min_dvd {F a b : Nat} (ha : F ∣ a) (hb : F ∣ b) : F ∣ min a b := by
  rcases le_total a b with hab | hab
  · rw [min_eq_left hab]
    exact ha
  · rw [min_eq_right hab]
    exact hb

lemma dealloc_loop_aligned {F : Nat} :
    ∀ (fuel : Nat) {h : Heap} {blk order : Nat} {h1 : Heap},
    lists_aligned F h → F ∣ blk →
    dealloc_loop fuel h blk order = some h1 → lists_aligned F h1 := by
  intro fuel
  induction fuel with
  | zero =>
    intro h blk order h1 _ _ heq
    simp [dealloc_loop] at heq
  | succ fuel ih =>
    intro h blk order h1 hal hblk heq
    rw [dealloc_loop] at heq
    rcases hgb : get_buddy h blk order with _ | buddy
    · simp only [hgb, Option.some.injEq] at heq
      exact heq ▸ push_block_order_aligned hal hblk
    · simp only [hgb] at heq
      rcases hfar : find_and_remove buddy (h.free_lists.getD order []) with _ | newList
      · simp only [hfar, Option.some.injEq] at heq
        exact heq ▸ push_block_order_aligned hal hblk
      · simp only [hfar] at heq
        obtain ⟨hbud, hsub⟩ := find_and_remove_spec hfar
        have hbuddy : F ∣ buddy := lists_aligned_mem hal hbud
        have hal1 : lists_aligned F
            { min_block_size := h.min_block_size,
              min_block_size_log2 := h.min_block_size_log2,
              heap_size := h.heap_size,
              free_lists := h.free_lists.set order newList,
              base_ptr := h.base_ptr,
              mem := (merge h.mem blk buddy).1 } :=
          lists_aligned_set hal (fun a ha => lists_aligned_mem hal (hsub a ha))
        exact ih hal1 (show F ∣ (merge h.mem blk buddy).2 from min_dvd hblk hbuddy) heq

lemma dealloc_aligned {F : Nat} {h h1 : Heap} {fuel ptr size align : Nat}
    (hal : lists_aligned F h) (hptr : F ∣ ptr)
    (heq : dealloc h F fuel ptr size align = some h1) : lists_aligned F h1 := by
  unfold dealloc at heq
  rcases hbo : block_order h F size align with e | order
  · simp only [hbo] at heq
    exact Option.noConfusion heq
  · simp only [hbo] at heq
    have hal2 : lists_aligned F
        { min_block_size := h.min_block_size,
          min_block_size_log2 := h.min_block_size_log2,
          heap_size := h.heap_size, free_lists := h.free_lists,
          base_ptr := h.base_ptr, mem := updateMem h.mem ptr size } := hal
    exact dealloc_loop_aligned fuel hal2 hptr heq

lemma step_aligned {F : Nat} {c c1 : Config} (hc : frame_aligned F c)
    (hs : Step F c c1) : frame_aligned F c1 := by
  obtain ⟨hal, hfr, hallocd⟩ := hc
  cases hs with
  | alloc fuel size align res h fr heq =>
    obtain ⟨hal1, hfr1, hres⟩ := alloc_aligned fuel hal hfr heq
    refine ⟨hal1, hfr1, ?_⟩
    cases res with
    | error e => exact hallocd
    | ok a =>
      intro x hx
      rcases List.mem_cons.1 hx with rfl | hx2
      · exact (hres x rfl).1
      · exact hallocd x hx2
  | dealloc fuel ptr size align h hptr heq =>
    exact ⟨dealloc_aligned hal (hallocd ptr hptr) heq, hfr,
      fun x hx => hallocd x (List.mem_of_mem_erase hx)⟩

lemma reach_aligned {F : Nat} {c0 c : Config} (h0 : frame_aligned F c0)
    (hr : Reach F c0 c) : frame_aligned F c := by
  induction hr with
  | refl => exact h0
  | step hr hs ih => exact step_aligned ih hs

/-- C3: on every configuration reachable by allocator operations from a
frame-aligned start (all free blocks, provider frames and outstanding
allocations at multiples of the power-of-two `FRAME_SIZE`), every
successful `alloc (size, align)` returns an address with
`address % align = 0`. -/
theorem c3_alloc_alignment (F fl : Nat) (c0 c : Config) (size align fuel : Nat)
    (h1 : Heap) (fr1 : List Nat) (addr : Nat)
    (hF : F = 2 ^ fl)
    (hc0 : frame_aligned F c0)
    (hreach : Reach F c0 c)
    (hsucc : alloc F size align fuel c.heap c.frames = some (Except.ok addr, h1, fr1)) :
    addr % align = 0 := by
  obtain ⟨hal, hfr, -⟩ := reach_aligned hc0 hreach
  obtain ⟨-, -, hres⟩ := alloc_aligned fuel hal hfr hsucc
  obtain ⟨haddr, hpow, hle⟩ := hres addr rfl
  obtain ⟨k, rfl⟩ := (is_power_of_two_iff align).1 hpow
  subst hF
  have hk : k ≤ fl := (Nat.pow_le_pow_iff_right (by norm_num)).1 hle
  exact Nat.mod_eq_zero_of_dvd (dvd_trans (pow_dvd_pow 2 hk) haddr)

/-- Witness for C3: the heap of the C1 scenario, reached trivially, with a
successful 16-byte/16-aligned allocation returning address 0. -/
theorem c3_witness :
    alloc 64 16 16 1 ⟨16, 4, 64, [[], [], [0]], 0, fun _ => 0⟩ [] =
      some (Except.ok 0, ⟨16, 4, 64, [[], [], []], 0, fun _ => 0⟩, []) ∧
    (0 : Nat) % 16 = 0 :=
  ⟨rfl,
   c3_alloc_alignment 64 6 ⟨⟨16, 4, 64, [[], [], [0]], 0, fun _ => 0⟩, [], []⟩
     ⟨⟨16, 4, 64, [[], [], [0]], 0, fun _ => 0⟩, [], []⟩ 16 16 1
     ⟨16, 4, 64, [[], [], []], 0, fun _ => 0⟩ [] 0 (by norm_num)
     ⟨by
        intro l hl a ha
        simp only [List.mem_cons, List.not_mem_nil, or_false] at hl
        rcases hl with rfl | rfl | rfl
        · simp at ha
        · simp at ha
        · simp only [List.mem_cons, List.not_mem_nil, or_false] at ha
          subst ha
          exact Dvd.intro 0 rfl,
      by intro f hf; simp at hf,
      by intro a ha; simp at ha⟩
     Reach.refl rfl⟩

end Alarm
